import Mathlib

/-!
Verification of the document ingestion and retrieval pipeline
(chunking, embedding batching, similarity retrieval, caching,
PDF splitting, raw-text scanning, per-question fan-out).

Texts are modelled as `List Char` where character-level structure
matters (splitting on whitespace, joining with spaces, regex-style
scanning) and as `String` where the code treats them opaquely.
JavaScript numbers are modelled as `ℤ`/`ℕ` where the code uses them
as integers (indices, sizes, timestamps) and as `ℝ` for the
similarity arithmetic.  Thrown exceptions are modelled with
`Except String`.
-/

namespace HackRx

/-! ### Word windowing (`chunkText` loop body)

The source loop `for (let i = 0; i < words.length; i += maxWords)
chunks.push(words.slice(i, i + maxWords) ...)` is the consecutive
partition of `words` into slices of `maxWords` elements.  The loop is
modelled by `chunksOf`; `chunksOfSucc m` takes slices of size `m + 1`
(the source validates `maxWords > 0` before the loop, so the size-0
case is unreachable there). -/

def chunksOfSucc (m : Nat) : List α → List (List α)
  | [] => []
  | x :: xs => (x :: xs).take (m + 1) :: chunksOfSucc m (xs.drop m)
termination_by l => l.length
decreasing_by
  simp only [List.length_cons]
  exact Nat.lt_succ_of_le (List.length_drop m xs ▸ Nat.sub_le _ _)

def chunksOf (n : Nat) (l : List α) : List (List α) :=
  match n with
  | 0 => []
  | m + 1 => chunksOfSucc m l

theorem chunksOfSucc_nil (m : Nat) : chunksOfSucc m ([] : List α) = [] := by
  simp [chunksOfSucc]

theorem chunksOfSucc_cons (m : Nat) (x : α) (xs : List α) :
    chunksOfSucc m (x :: xs) =
      (x :: xs).take (m + 1) :: chunksOfSucc m (xs.drop m) := by
  rw [chunksOfSucc]

/-- Concatenating the slices returns the original list: nothing is
lost, duplicated or reordered. -/
theorem join_chunksOfSucc (m : Nat) (l : List α) :
    (chunksOfSucc m l).flatten = l := by
  induction l using chunksOfSucc.induct m with
  | case1 => simp [chunksOfSucc_nil]
  | case2 x xs ih =>
    rw [chunksOfSucc_cons, List.flatten_cons, ih]
    have : xs.drop m = (x :: xs).drop (m + 1) := rfl
    rw [this, List.take_append_drop]

theorem join_chunksOf (n : Nat) (hn : 1 ≤ n) (l : List α) :
    (chunksOf n l).flatten = l := by
  match n, hn with
  | m + 1, _ => exact join_chunksOfSucc m l

/-- Every slice is non-empty and holds at most `m + 1` elements. -/
theorem mem_chunksOfSucc (m : Nat) (l : List α) :
    ∀ c ∈ chunksOfSucc m l, c ≠ [] ∧ c.length ≤ m + 1 := by
  induction l using chunksOfSucc.induct m with
  | case1 => simp [chunksOfSucc_nil]
  | case2 x xs ih =>
    rw [chunksOfSucc_cons]
    intro c hc
    rw [List.mem_cons] at hc
    rcases hc with hc | hc
    · subst hc
      constructor
      · simp [List.take]
      · simp
    · exact ih c hc

/-- Every slice except possibly the last holds exactly `m + 1`
elements. -/
theorem dropLast_chunksOfSucc (m : Nat) (l : List α) :
    ∀ c ∈ (chunksOfSucc m l).dropLast, c.length = m + 1 := by
  induction l using chunksOfSucc.induct m with
  | case1 => simp [chunksOfSucc_nil]
  | case2 x xs ih =>
    rw [chunksOfSucc_cons]
    intro c hc
    rcases h : chunksOfSucc m (xs.drop m) with _ | ⟨d, ds⟩
    · rw [h] at hc
      simp at hc
    · rw [h, List.dropLast_cons_of_ne_nil (by simp), List.mem_cons] at hc
      rcases hc with hc | hc
      · subst hc
        have hxs : m ≤ xs.length := by
          by_contra hlt
          push_neg at hlt
          have : xs.drop m = [] := List.drop_eq_nil_of_le (Nat.le_of_lt hlt)
          rw [this, chunksOfSucc_nil] at h
          exact absurd h (by simp)
        simpa using Nat.succ_le_succ hxs
      · exact ih c (h ▸ hc)

/-! ### Whitespace splitting and joining

`splitWs` models the JavaScript `text.split(/\s+/)`: the string is cut
at every maximal run of whitespace, with an empty token at either end
when the string starts or ends with whitespace (`"".split` gives
`[""]`).  `joinWords` models `Array.prototype.join(' ')` and
`splitOnSpace` models splitting on every single space, used to state
the round-trip property.  `trimWs` models `String.prototype.trim`. -/

def isWs (c : Char) : Bool :=
  c = ' ' ∨ c = '\t' ∨ c = '\n' ∨ c = '\r'

def splitWs : List Char → List (List Char)
  | [] => [[]]
  | c :: cs =>
    if isWs c then
      [] :: splitWs (cs.dropWhile isWs)
    else
      match splitWs cs with
      | [] => [[c]]
      | w :: ws => (c :: w) :: ws
termination_by l => l.length
decreasing_by
  · simp only [List.length_cons]
    exact Nat.lt_succ_of_le (List.Sublist.length_le (List.dropWhile_sublist _))
  · simp

def splitOnSpace : List Char → List (List Char)
  | [] => [[]]
  | c :: cs =>
    if c = ' ' then
      [] :: splitOnSpace cs
    else
      match splitOnSpace cs with
      | [] => [[c]]
      | w :: ws => (c :: w) :: ws

def joinWords : List (List Char) → List Char
  | [] => []
  | [w] => w
  | w :: ws => w ++ ' ' :: joinWords ws

def trimWs (s : List Char) : List Char :=
  ((s.dropWhile isWs).reverse.dropWhile isWs).reverse

theorem splitWs_ne_nil (s : List Char) : splitWs s ≠ [] := by
  match s with
  | [] => simp [splitWs]
  | c :: cs =>
    rw [splitWs]
    split
    · simp
    · split <;> simp

theorem splitOnSpace_ne_nil (s : List Char) : splitOnSpace s ≠ [] := by
  match s with
  | [] => simp [splitOnSpace]
  | c :: cs =>
    rw [splitOnSpace]
    split
    · simp
    · split <;> simp

/-- A string with no whitespace splits into itself alone. -/
theorem splitWs_of_no_ws (w : List Char) (hw : ∀ c ∈ w, ¬ isWs c) :
    splitWs w = [w] := by
  induction w with
  | nil => simp [splitWs]
  | cons c cs ih =>
    have hc : ¬ isWs c := hw c (by simp)
    rw [splitWs, if_neg hc, ih (fun d hd => hw d (by simp [hd]))]

/-- A string with no space splits into itself alone. -/
theorem splitOnSpace_of_no_space (w : List Char)
    (hw : ∀ c ∈ w, c ≠ ' ') : splitOnSpace w = [w] := by
  induction w with
  | nil => rfl
  | cons c cs ih =>
    have hc : c ≠ ' ' := hw c (by simp)
    rw [splitOnSpace, if_neg hc, ih (fun d hd => hw d (by simp [hd]))]

theorem splitOnSpace_append_space (w t : List Char)
    (hw : ∀ c ∈ w, c ≠ ' ') :
    splitOnSpace (w ++ ' ' :: t) = w :: splitOnSpace t := by
  induction w with
  | nil => simp [splitOnSpace]
  | cons c cs ih =>
    have hc : c ≠ ' ' := hw c (by simp)
    have ih' := ih (fun d hd => hw d (by simp [hd]))
    rw [List.cons_append, splitOnSpace, if_neg hc, ih']

theorem splitWs_append_space (w t : List Char)
    (hw : ∀ c ∈ w, ¬ isWs c) (ht : ∃ d ds, t = d :: ds ∧ ¬ isWs d) :
    splitWs (w ++ ' ' :: t) = w :: splitWs t := by
  induction w with
  | nil =>
    obtain ⟨d, ds, rfl, hd⟩ := ht
    rw [List.nil_append, splitWs, if_pos (by simp [isWs]),
      List.dropWhile_cons_of_neg (by simpa using hd)]
  | cons c cs ih =>
    have hc : ¬ isWs c := hw c (by simp)
    have ih' := ih (fun d hd => hw d (by simp [hd]))
    rw [List.cons_append, splitWs, if_neg hc, ih']

/-- Splitting the single-space join of space-free words recovers the
words. -/
theorem splitOnSpace_joinWords (W : List (List Char)) (hW : W ≠ [])
    (hw : ∀ w ∈ W, ∀ c ∈ w, c ≠ ' ') :
    splitOnSpace (joinWords W) = W := by
  induction W with
  | nil => exact absurd rfl hW
  | cons w ws ih =>
    match ws with
    | [] =>
      exact splitOnSpace_of_no_space w (hw w (by simp))
    | w' :: ws' =>
      have hjw : joinWords (w :: w' :: ws') =
          w ++ ' ' :: joinWords (w' :: ws') := rfl
      rw [hjw,
        splitOnSpace_append_space w _ (hw w (by simp)),
        ih (List.cons_ne_nil _ _)
          (fun v hv c hc => hw v (by simp [hv]) c hc)]

theorem joinWords_head_of_ne (w : List Char) (ws : List (List Char))
    (hw : w ≠ []) : ∃ d ds, joinWords (w :: ws) = d :: ds ∧ d ∈ w := by
  match w, ws with
  | c :: cs, [] => exact ⟨c, cs, rfl, by simp⟩
  | c :: cs, w' :: ws' => exact ⟨c, _, rfl, by simp⟩

/-- Splitting the single-space join of non-empty whitespace-free words
on whitespace runs recovers the words. -/
theorem splitWs_joinWords (W : List (List Char)) (hW : W ≠ [])
    (hw : ∀ w ∈ W, w ≠ [] ∧ ∀ c ∈ w, ¬ isWs c) :
    splitWs (joinWords W) = W := by
  induction W with
  | nil => exact absurd rfl hW
  | cons w ws ih =>
    match ws with
    | [] =>
      exact splitWs_of_no_ws w (hw w (by simp)).2
    | w' :: ws' =>
      have hjoin := joinWords_head_of_ne w' ws' (hw w' (by simp)).1
      obtain ⟨d, ds, hd, hdw⟩ := hjoin
      have hjw : joinWords (w :: w' :: ws') =
          w ++ ' ' :: joinWords (w' :: ws') := rfl
      rw [hjw,
        splitWs_append_space w _ (hw w (by simp)).2
          ⟨d, ds, hd, (hw w' (by simp)).2 d hdw⟩,
        ih (List.cons_ne_nil _ _) (fun v hv => hw v (by simp [hv]))]

/-- Strings with a non-whitespace character trim to something
non-empty. -/
theorem trimWs_ne_nil (s : List Char) (hs : ∃ d ∈ s, ¬ isWs d) :
    trimWs s ≠ [] := by
  obtain ⟨d, hds, hd⟩ := hs
  intro h
  rw [trimWs] at h
  rw [List.reverse_eq_nil_iff, List.dropWhile_eq_nil_iff] at h
  have hall : ∀ x ∈ s.dropWhile isWs, isWs x := by
    intro x hx
    exact h x (by simpa using hx)
  have := List.takeWhile_append_dropWhile (p := isWs) (l := s)
  rw [← this, List.mem_append] at hds
  rcases hds with hds | hds
  · exact hd (List.mem_takeWhile_imp hds)
  · exact hd (hall d hds)

/-- `chunkText` from `src/app/api/v1/hackrx/run/route.ts` (lines
219-239): validate that the text is non-empty and the window positive,
tokenize on whitespace runs dropping empty tokens, window the words
into `maxWords`-sized slices rejoined with single spaces, and keep a
chunk only if it trims non-empty. -/
def chunkText (text : List Char) (maxWords : Nat) :
    Except String (List (List Char)) :=
  if text = [] then
    Except.error "Invalid input: text must be a non-empty string"
  else if maxWords = 0 then
    Except.error "Invalid input: maxWords must be a positive number"
  else
    let words := (splitWs text).filter (fun w => 0 < w.length)
    Except.ok (((chunksOf maxWords words).map joinWords).filter
      (fun c => trimWs c ≠ []))

/-- `chunkText` from `src/app/api/extract-text/route.ts` (lines
1219-1235 and 1493-1509): same windowing but without the empty-token
filter and without the trim check. -/
def chunkTextBasic (text : List Char) (maxWords : Nat) :
    Except String (List (List Char)) :=
  if text = [] then
    Except.error "Invalid input: text must be a non-empty string"
  else if maxWords = 0 then
    Except.error "Invalid input: maxWords must be a positive number"
  else
    Except.ok ((chunksOf maxWords (splitWs text)).map joinWords)

/-- C1: Chunking round-trip.  For every non-empty sequence `W` of
non-empty whitespace-free words and every positive window `n`,
`chunkText` on the space-joined text succeeds and windows `W` into the
consecutive non-overlapping slices `chunksOf n W` (each slice
non-empty with at most `n` words, all but the last with exactly `n`);
the extract-text copy agrees with the run copy; and splitting each
produced chunk back on single spaces and concatenating reproduces `W`
exactly — no word lost, duplicated or reordered. -/
theorem chunkText_roundtrip (W : List (List Char)) (n : Nat)
    (hW : W ≠ []) (hn : 1 ≤ n)
    (hwords : ∀ w ∈ W, w ≠ [] ∧ ∀ c ∈ w, ¬ isWs c) :
    chunkText (joinWords W) n =
        Except.ok ((chunksOf n W).map joinWords) ∧
      chunkTextBasic (joinWords W) n = chunkText (joinWords W) n ∧
      (∀ c ∈ chunksOf n W, c ≠ [] ∧ c.length ≤ n) ∧
      (∀ c ∈ (chunksOf n W).dropLast, c.length = n) ∧
      (((chunksOf n W).map joinWords).map splitOnSpace).flatten = W := by
  obtain ⟨w₀, ws₀, rfl⟩ := List.exists_cons_of_ne_nil hW
  set W := w₀ :: ws₀ with hWdef
  have htext : joinWords W ≠ [] := by
    obtain ⟨d, ds, hd, _⟩ := joinWords_head_of_ne w₀ ws₀
      (hwords w₀ (by rw [hWdef]; exact List.mem_cons_self _ _)).1
    rw [hd]
    simp
  have hsplit : splitWs (joinWords W) = W :=
    splitWs_joinWords W (List.cons_ne_nil _ _) hwords
  have hfilter : W.filter (fun w => 0 < w.length) = W := by
    rw [List.filter_eq_self]
    intro w hw
    have := (hwords w hw).1
    simpa [List.length_pos] using this
  have hmemW : ∀ c ∈ chunksOf n W, ∀ w ∈ c, w ∈ W := by
    intro c hc w hwc
    have := join_chunksOf n hn W
    rw [← this]
    exact List.mem_flatten.mpr ⟨c, hc, hwc⟩
  have hchunks : ∀ c ∈ chunksOf n W, c ≠ [] ∧ c.length ≤ n := by
    intro c hc
    match n, hn with
    | m + 1, _ => exact mem_chunksOfSucc m W c hc
  have htrim : ∀ c ∈ (chunksOf n W).map joinWords, trimWs c ≠ [] := by
    intro c hc
    obtain ⟨d, hd, rfl⟩ := List.mem_map.mp hc
    obtain ⟨d₀, ds₀, rfl⟩ := List.exists_cons_of_ne_nil (hchunks d hd).1
    have hd₀ : d₀ ∈ W := hmemW _ hd d₀ (by simp)
    obtain ⟨e, es, he, hew⟩ :=
      joinWords_head_of_ne d₀ ds₀ (hwords d₀ hd₀).1
    refine trimWs_ne_nil _ ⟨e, ?_, (hwords d₀ hd₀).2 e hew⟩
    rw [he]
    simp
  have hkeep : ((chunksOf n W).map joinWords).filter
      (fun c => trimWs c ≠ []) = (chunksOf n W).map joinWords := by
    rw [List.filter_eq_self]
    intro c hc
    simpa using htrim c hc
  have hrun : chunkText (joinWords W) n =
      Except.ok ((chunksOf n W).map joinWords) := by
    rw [chunkText, if_neg (by simpa using htext),
      if_neg (by omega)]
    simp only [hsplit, hfilter, hkeep]
  refine ⟨hrun, ?_, hchunks, ?_, ?_⟩
  · rw [chunkTextBasic, if_neg (by simpa using htext),
      if_neg (by omega), hrun, hsplit]
  · intro c hc
    match n, hn with
    | m + 1, _ => exact dropLast_chunksOfSucc m W c hc
  · rw [List.map_map]
    have : (chunksOf n W).map (splitOnSpace ∘ joinWords) = chunksOf n W := by
      apply List.map_congr_left ?_ |>.trans (List.map_id _)
      intro c hc
      have hc0 := (hchunks c hc).1
      refine splitOnSpace_joinWords c hc0 ?_
      intro w hwc d hd
      have hwW : w ∈ W := hmemW c hc w hwc
      have := (hwords w hwW).2 d hd
      intro hsp
      exact this (by simp [hsp, isWs])
    rw [this, join_chunksOf n hn]

/-- Concrete instance of `chunkText_roundtrip`: three one-letter words
with window 2. -/
theorem chunkText_roundtrip_witness :
    chunkText (joinWords [['a'], ['b'], ['c']]) 2 =
        Except.ok ((chunksOf 2 [['a'], ['b'], ['c']]).map joinWords) ∧
      (((chunksOf 2 [['a'], ['b'], ['c']]).map joinWords).map
        splitOnSpace).flatten = [['a'], ['b'], ['c']] := by
  have h := chunkText_roundtrip [['a'], ['b'], ['c']] 2 (by decide)
    (by decide) (by decide)
  exact ⟨h.1, h.2.2.2.2⟩

/-! ### Per-question fan-out (`processQuestionsWithPinecone`)

`src/app/api/v1/hackrx/run/route.ts` lines 104-146.  Each question is
processed concurrently; the per-question body (Pinecone retrieval plus
answer synthesis) is abstracted as `process : Nat → String → Except
Unit String`, its `Except.error` outcome modelling a thrown exception
caught by the per-question `catch`.  `Promise.all` hands back one
result record per question; the records are then sorted by their
carried original index (a stable comparison sort, modelled by
`insertionSort`) and mapped to their answers.  Arrival order is
modelled by quantifying over permutations of the result records. -/

structure QResult where
  question : List Char
  answer : List Char
  index : Nat
deriving DecidableEq

def processQuestion (process : Nat → List Char → Except Unit (List Char))
    (index : Nat) (question : List Char) : QResult :=
  if trimWs question = [] then
    { question := question,
      answer := "Error: Empty question provided".toList,
      index := index }
  else
    match process index question with
    | Except.ok a => { question := question, answer := a, index := index }
    | Except.error _ =>
      { question := question,
        answer := "Error: Failed to process the question: ".toList ++ question,
        index := index }

def byIndex (a b : QResult) : Prop := a.index ≤ b.index

instance : DecidableRel byIndex := fun a b => Nat.decLe a.index b.index

def processQuestionsWithPinecone
    (process : Nat → List Char → Except Unit (List Char))
    (questions : List (List Char)) : List (List Char) :=
  let results := questions.enum.map
    (fun p => processQuestion process p.1 p.2)
  (List.insertionSort byIndex results).map QResult.answer

theorem index_processQuestion
    (process : Nat → List Char → Except Unit (List Char))
    (i : Nat) (q : List Char) : (processQuestion process i q).index = i := by
  rw [processQuestion]
  split
  · rfl
  · split <;> rfl

/-- The expected result records carry strictly increasing indices. -/
theorem pairwise_expected
    (process : Nat → List Char → Except Unit (List Char))
    (questions : List (List Char)) :
    List.Pairwise (fun a b => a.index < b.index)
      (questions.enum.map (fun p => processQuestion process p.1 p.2)) := by
  rw [List.pairwise_map]
  have h := List.pairwise_lt_range questions.length
  rw [← List.enum_map_fst, List.pairwise_map] at h
  exact h.imp (fun hab => by
    simpa [index_processQuestion] using hab)

/-- Sorting any arrival permutation of the result records by index
recovers the records in original question order. -/
theorem insertionSort_arrival
    (process : Nat → List Char → Except Unit (List Char))
    (questions : List (List Char)) (arrived : List QResult)
    (hperm : arrived.Perm
      (questions.enum.map (fun p => processQuestion process p.1 p.2))) :
    List.insertionSort byIndex arrived =
      questions.enum.map (fun p => processQuestion process p.1 p.2) := by
  haveI : IsTotal QResult byIndex := ⟨fun a b => Nat.le_total a.index b.index⟩
  haveI : IsTrans QResult byIndex := ⟨fun _ _ _ => Nat.le_trans⟩
  set expected := questions.enum.map
    (fun p => processQuestion process p.1 p.2) with hexp
  have hsortperm : (List.insertionSort byIndex arrived).Perm expected :=
    (List.perm_insertionSort byIndex arrived).trans hperm
  have hsorted : List.Sorted byIndex (List.insertionSort byIndex arrived) :=
    List.sorted_insertionSort byIndex arrived
  have hnodup : ((List.insertionSort byIndex arrived).map
      QResult.index).Nodup := by
    refine (hsortperm.map QResult.index).nodup_iff.mpr ?_
    have : expected.map QResult.index = List.range questions.length := by
      rw [hexp, List.map_map, ← List.enum_map_fst]
      refine List.map_congr_left ?_
      intro p _
      simp [index_processQuestion]
    rw [this]
    exact List.nodup_range _
  have hstrict : List.Sorted (fun a b : QResult => a.index < b.index)
      (List.insertionSort byIndex arrived) := by
    rw [List.Sorted] at hsorted ⊢
    have hne : List.Pairwise
        (fun a b : QResult => a.index ≠ b.index)
        (List.insertionSort byIndex arrived) :=
      List.pairwise_map.mp hnodup
    exact (hsorted.and hne).imp
      (fun h => Nat.lt_of_le_of_ne h.1 h.2)
  refine @List.eq_of_perm_of_sorted QResult
    (fun a b => a.index < b.index)
    ⟨fun a b h1 h2 => absurd h2 (Nat.lt_asymm h1)⟩ _ _
    hsortperm hstrict (pairwise_expected process questions)

/-- C2: Per-question ordering and failure isolation.  The answers list
has exactly one entry per question; slot `i` holds the answer computed
for question `i` alone (re-sorted by original index), so sorting any
arrival permutation of the in-flight records yields the same output,
and a processing failure for question `i` puts the placeholder error
string in slot `i` without affecting any other slot. -/
theorem processQuestions_order
    (process : Nat → List Char → Except Unit (List Char))
    (questions : List (List Char)) :
    processQuestionsWithPinecone process questions =
        (questions.enum.map
          (fun p => processQuestion process p.1 p.2)).map QResult.answer ∧
      (processQuestionsWithPinecone process questions).length =
        questions.length ∧
      (∀ i : Nat, (processQuestionsWithPinecone process questions)[i]? =
        (questions[i]?).map (fun q => (processQuestion process i q).answer)) ∧
      (∀ arrived : List QResult,
        arrived.Perm (questions.enum.map
          (fun p => processQuestion process p.1 p.2)) →
        (List.insertionSort byIndex arrived).map QResult.answer =
          processQuestionsWithPinecone process questions) ∧
      (∀ i q e, questions[i]? = some q → ¬ trimWs q = [] →
        process i q = Except.error e →
        (processQuestionsWithPinecone process questions)[i]? =
          some ("Error: Failed to process the question: ".toList ++ q)) := by
  have hbase : processQuestionsWithPinecone process questions =
      (questions.enum.map
        (fun p => processQuestion process p.1 p.2)).map QResult.answer := by
    rw [processQuestionsWithPinecone]
    rw [insertionSort_arrival process questions _ (List.Perm.refl _)]
  have hget : ∀ i : Nat,
      (processQuestionsWithPinecone process questions)[i]? =
        (questions[i]?).map (fun q => (processQuestion process i q).answer) := by
    intro i
    rw [hbase, List.map_map, List.getElem?_map, List.getElem?_enum]
    rcases h : questions[i]? with _ | q <;> simp
  refine ⟨hbase, ?_, hget, ?_, ?_⟩
  · rw [hbase]
    simp
  · intro arrived hperm
    rw [hbase, insertionSort_arrival process questions arrived hperm]
  · intro i q e hq htrim hproc
    rw [hget i, hq]
    simp [processQuestion, htrim, hproc]

/-- Concrete instance of `processQuestions_order`: two questions, the
second one failing, yield the first answer and the placeholder in
order. -/
theorem processQuestions_order_witness :
    processQuestionsWithPinecone
        (fun i _ =>
          if i = 0 then Except.ok "fine".toList else Except.error ())
        ["q0".toList, "q1".toList] =
      ["fine".toList, "Error: Failed to process the question: q1".toList] := by
  have h := (processQuestions_order
    (fun i _ => if i = 0 then Except.ok "fine".toList else Except.error ())
    ["q0".toList, "q1".toList]).1
  rw [h]
  decide

/-! ### Cosine similarity (`cosineSimilarity`)

`src/app/api/extract-text/route.ts` lines 1238-1255 (identical copy at
1512-1529).  JavaScript numbers are idealised as real numbers.  The
indexed reduce `a.reduce((sum, val, i) => sum + val * b[i], 0)` equals
the zip-with sum whenever the vectors have equal length, which the
function has already checked at that point. -/

def dotProduct (a b : List ℝ) : ℝ := (List.zipWith (· * ·) a b).sum

def sqSum (a : List ℝ) : ℝ := (a.map (fun x => x * x)).sum

noncomputable def magnitude (a : List ℝ) : ℝ := Real.sqrt (sqSum a)

noncomputable def cosineSim (a b : List ℝ) : ℝ :=
  dotProduct a b / (magnitude a * magnitude b)

noncomputable def cosineSimilarity (a b : List ℝ) : Except String ℝ :=
  if a.length = 0 ∨ b.length = 0 then
    Except.error "Invalid input: vectors must be non-empty arrays"
  else if a.length ≠ b.length then
    Except.error "Vectors must have the same length"
  else if magnitude a = 0 ∨ magnitude b = 0 then
    Except.error "Invalid vectors: magnitude cannot be zero"
  else
    Except.ok (cosineSim a b)

theorem sqSum_nonneg (a : List ℝ) : 0 ≤ sqSum a := by
  rw [sqSum]
  apply List.sum_nonneg
  intro x hx
  obtain ⟨y, _, rfl⟩ := List.mem_map.mp hx
  exact mul_self_nonneg y

theorem magnitude_nonneg (a : List ℝ) : 0 ≤ magnitude a :=
  Real.sqrt_nonneg _

theorem dotProduct_comm (a b : List ℝ) : dotProduct a b = dotProduct b a := by
  rw [dotProduct, dotProduct]
  congr 1
  induction a generalizing b with
  | nil => cases b <;> simp
  | cons x xs ih =>
    cases b with
    | nil => simp
    | cons y ys => simp [ih ys, mul_comm]

theorem dotProduct_self (a : List ℝ) : dotProduct a a = sqSum a := by
  rw [dotProduct, sqSum]
  congr 1
  induction a with
  | nil => simp
  | cons x xs ih => simp [ih]

theorem list_cauchy_schwarz : ∀ a b : List ℝ,
    dotProduct a b ^ 2 ≤ sqSum a * sqSum b := by
  intro a
  induction a with
  | nil =>
    intro b
    simp [dotProduct, sqSum]
  | cons x xs ih =>
    intro b
    match b with
    | [] =>
      have := mul_nonneg (sqSum_nonneg (x :: xs)) (sqSum_nonneg ([] : List ℝ))
      simpa [dotProduct] using this
    | y :: ys =>
      have hS := ih ys
      have hA := sqSum_nonneg xs
      have hB := sqSum_nonneg ys
      have hd : dotProduct (x :: xs) (y :: ys) = x * y + dotProduct xs ys := by
        simp [dotProduct]
      have hsa : sqSum (x :: xs) = x * x + sqSum xs := by simp [sqSum]
      have hsb : sqSum (y :: ys) = y * y + sqSum ys := by simp [sqSum]
      rw [hd, hsa, hsb]
      set S := dotProduct xs ys
      set A := sqSum xs
      set B := sqSum ys
      rcases eq_or_lt_of_le hA with hA0 | hA0
      · have hS0 : S ^ 2 ≤ 0 := by
          rw [← hA0] at hS
          simpa using hS
        have h0 : S = 0 := by nlinarith [sq_nonneg S]
        rw [h0, ← hA0]
        nlinarith [mul_nonneg (mul_self_nonneg x) hB]
      · nlinarith [sq_nonneg (S * x - A * y),
          mul_nonneg (sub_nonneg.mpr hS) (mul_self_nonneg x),
          mul_nonneg (sub_nonneg.mpr hS) hA]

theorem abs_dotProduct_le (a b : List ℝ) :
    |dotProduct a b| ≤ magnitude a * magnitude b := by
  have h := list_cauchy_schwarz a b
  have habs : |dotProduct a b| = Real.sqrt (dotProduct a b ^ 2) := by
    rw [Real.sqrt_sq_eq_abs]
  rw [habs, magnitude, magnitude, ← Real.sqrt_mul (sqSum_nonneg a)]
  exact Real.sqrt_le_sqrt h

/-- C5: Cosine similarity laws.  On equal-length non-empty vectors of
non-zero magnitude the checked similarity returns the quotient
`dot / (|a|·|b|)`, which is symmetric, lies in `[-1, 1]`, and equals
`1` on identical arguments. -/
theorem cosineSimilarity_laws (a b : List ℝ) (hab : a.length = b.length)
    (ha : a ≠ []) (hA : magnitude a ≠ 0) (hB : magnitude b ≠ 0) :
    cosineSimilarity a b = Except.ok (cosineSim a b) ∧
      cosineSim a b = cosineSim b a ∧
      -1 ≤ cosineSim a b ∧ cosineSim a b ≤ 1 ∧
      cosineSim a a = 1 := by
  have hA' : 0 < magnitude a := lt_of_le_of_ne (magnitude_nonneg a)
    (Ne.symm hA)
  have hB' : 0 < magnitude b := lt_of_le_of_ne (magnitude_nonneg b)
    (Ne.symm hB)
  have hok : cosineSimilarity a b = Except.ok (cosineSim a b) := by
    rw [cosineSimilarity]
    rw [if_neg, if_neg, if_neg]
    · push_neg
      exact ⟨hA, hB⟩
    · simpa using hab
    · push_neg
      constructor
      · simpa using ha
      · intro h
        exact absurd (hab ▸ h) (by simpa using ha)
  have hsymm : cosineSim a b = cosineSim b a := by
    rw [cosineSim, cosineSim, dotProduct_comm, mul_comm]
  have hbound : |cosineSim a b| ≤ 1 := by
    rw [cosineSim, abs_div, abs_of_pos (mul_pos hA' hB')]
    rw [div_le_one (mul_pos hA' hB')]
    exact abs_dotProduct_le a b
  have hself : cosineSim a a = 1 := by
    have hsq : magnitude a * magnitude a = sqSum a :=
      Real.mul_self_sqrt (sqSum_nonneg a)
    have hne : sqSum a ≠ 0 := by
      intro h
      apply hA
      rw [magnitude, h, Real.sqrt_zero]
    rw [cosineSim, dotProduct_self, hsq, div_self hne]
  exact ⟨hok, hsymm, (abs_le.mp hbound).1, (abs_le.mp hbound).2, hself⟩

/-- Concrete instance of `cosineSimilarity_laws` at `a = b = [1]`. -/
theorem cosineSimilarity_laws_witness :
    cosineSimilarity [(1 : ℝ)] [(1 : ℝ)] =
        Except.ok (cosineSim [(1 : ℝ)] [(1 : ℝ)]) ∧
      cosineSim [(1 : ℝ)] [(1 : ℝ)] = 1 := by
  have hmag : magnitude [(1 : ℝ)] ≠ 0 := by
    rw [magnitude, sqSum]
    norm_num
  have h := cosineSimilarity_laws [(1 : ℝ)] [(1 : ℝ)] rfl
    (by simp) hmag hmag
  exact ⟨h.1, h.2.2.2.2⟩

/-! ### In-memory top-K retrieval (`findRelevantChunks`)

`src/app/api/extract-text/route.ts` lines 1258-1291 (default/clamp
constant 2) and lines 1532-1565 (identical but constant 3).  The two
copies share `findRelevantChunksAux`, differing only in the constant
`dflt`.  `similarities.sort((a, b) => b.score - a.score)` is a stable
comparison sort by score descending, modelled by `insertionSort`;
`.slice(0, topK)` is `take`; `docChunks[index]` is total here because
every index produced by `enum` is in range, modelled by `getD`.  A
`cosineSimilarity` throw inside the `map` aborts the whole call, which
`mapM` over `Except` reproduces. -/

structure SimEntry where
  index : Nat
  score : ℝ

def simDesc (x y : SimEntry) : Prop := y.score ≤ x.score

noncomputable instance : DecidableRel simDesc :=
  fun x y => Real.decidableLE y.score x.score

noncomputable def rankedSimilarities (q : List ℝ)
    (docEmb : List (List ℝ)) : Except String (List SimEntry) :=
  (docEmb.enum.mapM
    (fun p => (cosineSimilarity q p.2).map
      (fun s => SimEntry.mk p.1 s))).map
    (List.insertionSort simDesc)

noncomputable def findRelevantChunksAux (dflt : Int) (q : List ℝ)
    (docEmb : List (List ℝ)) (docChunks : List String) (topK : Int) :
    Except String (List String) :=
  if q.length = 0 then
    Except.error "Invalid query embedding"
  else if docEmb.length = 0 then
    Except.error "Invalid document embeddings"
  else if docChunks.length = 0 then
    Except.error "Invalid document chunks"
  else if docEmb.length ≠ docChunks.length then
    Except.error "Number of embeddings must match number of chunks"
  else
    let k := if topK ≤ 0 ∨ (docChunks.length : Int) < topK then
      min dflt (docChunks.length : Int) else topK
    (rankedSimilarities q docEmb).map (fun sorted =>
      (sorted.take k.toNat).map (fun e => docChunks.getD e.index ""))

noncomputable def findRelevantChunks (q : List ℝ) (docEmb : List (List ℝ))
    (docChunks : List String) (topK : Int) : Except String (List String) :=
  findRelevantChunksAux 2 q docEmb docChunks topK

noncomputable def findRelevantChunksTop3 (q : List ℝ)
    (docEmb : List (List ℝ)) (docChunks : List String) (topK : Int) :
    Except String (List String) :=
  findRelevantChunksAux 3 q docEmb docChunks topK

theorem mapM_ok_of_forall_ok {β γ : Type} (l : List β)
    (f : β → Except String γ) (g : β → γ)
    (h : ∀ x ∈ l, f x = Except.ok (g x)) :
    l.mapM f = Except.ok (l.map g) := by
  induction l with
  | nil => rfl
  | cons x xs ih =>
    rw [List.mapM_cons, h x (by simp),
      ih (fun y hy => h y (by simp [hy]))]
    rfl

theorem snd_mem_of_mem_enum {α : Type} {p : Nat × α} {l : List α}
    (h : p ∈ l.enum) : p.2 ∈ l := by
  rcases p with ⟨i, a⟩
  obtain ⟨hi, ha⟩ := List.mem_enum h
  exact ha ▸ List.getElem_mem hi

/-- Under the validity conditions the similarity pass succeeds and
yields the score-descending stable sort of the indexed scores. -/
theorem rankedSimilarities_ok (q : List ℝ) (docEmb : List (List ℝ))
    (hq : q ≠ []) (hmagq : magnitude q ≠ 0)
    (hvalid : ∀ e ∈ docEmb, e.length = q.length ∧ magnitude e ≠ 0) :
    rankedSimilarities q docEmb =
      Except.ok (List.insertionSort simDesc
        (docEmb.enum.map (fun p => SimEntry.mk p.1 (cosineSim q p.2)))) := by
  rw [rankedSimilarities,
    mapM_ok_of_forall_ok docEmb.enum _
      (fun p => SimEntry.mk p.1 (cosineSim q p.2)) ?_]
  · rfl
  · intro p hp
    have hmem := snd_mem_of_mem_enum hp
    have hv := hvalid p.2 hmem
    have hok := (cosineSimilarity_laws q p.2 hv.1.symm hq hmagq hv.2).1
    rw [hok]
    rfl

theorem length_rankedSort (q : List ℝ) (docEmb : List (List ℝ)) :
    (List.insertionSort simDesc
      (docEmb.enum.map (fun p => SimEntry.mk p.1 (cosineSim q p.2)))).length
      = docEmb.length := by
  rw [(List.perm_insertionSort simDesc _).length_eq]
  simp

/-- Full characterisation of `findRelevantChunksAux` on valid input:
score the candidates, stable-sort descending, clamp, take, and look
the surviving indices up among the chunks. -/
theorem findRelevantChunksAux_spec (dflt : Int) (q : List ℝ)
    (docEmb : List (List ℝ)) (docChunks : List String) (k : Int)
    (hq : q ≠ []) (hemb : docEmb ≠ []) (hch : docChunks ≠ [])
    (hlen : docEmb.length = docChunks.length)
    (hmagq : magnitude q ≠ 0)
    (hvalid : ∀ e ∈ docEmb, e.length = q.length ∧ magnitude e ≠ 0) :
    findRelevantChunksAux dflt q docEmb docChunks k =
      Except.ok (((List.insertionSort simDesc
        (docEmb.enum.map (fun p => SimEntry.mk p.1 (cosineSim q p.2)))).take
          (if k ≤ 0 ∨ (docChunks.length : Int) < k then
            min dflt (docChunks.length : Int) else k).toNat).map
        (fun e => docChunks.getD e.index "")) := by
  rw [findRelevantChunksAux]
  rw [if_neg (by simpa using hq), if_neg (by simpa using hemb),
    if_neg (by simpa using hch), if_neg (by simpa using hlen)]
  rw [rankedSimilarities_ok q docEmb hq hmagq hvalid]
  rfl

/-- C3 counterexample: with three equal candidates and requested
`k = 10` (more than available), the run copy returns two chunks, not
all three — the code clamps to `min 2 candidateCount`, not to
`candidateCount`. -/
theorem findRelevantChunks_clamp_cex :
    ∃ out, findRelevantChunks [(1 : ℝ)] [[(1 : ℝ)], [(1 : ℝ)], [(1 : ℝ)]]
        ["a", "b", "c"] 10 = Except.ok out ∧ out.length = 2 ∧
      ¬ out.length = 3 := by
  have hmag : magnitude [(1 : ℝ)] ≠ 0 := by
    rw [magnitude, sqSum]
    norm_num
  have hspec := findRelevantChunksAux_spec 2 [(1 : ℝ)]
    [[(1 : ℝ)], [(1 : ℝ)], [(1 : ℝ)]] ["a", "b", "c"] 10
    (by simp) (by simp) (by simp) (by simp) hmag
    (by
      intro e he
      simp only [List.mem_cons, List.not_mem_nil, or_false] at he
      rcases he with rfl | rfl | rfl <;> exact ⟨rfl, hmag⟩)
  refine ⟨_, hspec, ?_, ?_⟩ <;>
    rw [List.length_map, List.length_take, length_rankedSort] <;>
    decide

/-- C3 (amended): when the requested `k` exceeds the candidate count
or is non-positive, `findRelevantChunks` behaves as if `k` were
`min 2 candidateCount` (the other copy `min 3 candidateCount`),
returning exactly that many chunks — not `candidateCount` of them. -/
theorem findRelevantChunks_clamp (q : List ℝ) (docEmb : List (List ℝ))
    (docChunks : List String) (k : Int)
    (hq : q ≠ []) (hemb : docEmb ≠ []) (hch : docChunks ≠ [])
    (hlen : docEmb.length = docChunks.length)
    (hmagq : magnitude q ≠ 0)
    (hvalid : ∀ e ∈ docEmb, e.length = q.length ∧ magnitude e ≠ 0)
    (hk : k ≤ 0 ∨ (docChunks.length : Int) < k) :
    (∃ out, findRelevantChunks q docEmb docChunks k = Except.ok out ∧
        out.length = min 2 docChunks.length) ∧
      ∃ out3, findRelevantChunksTop3 q docEmb docChunks k =
          Except.ok out3 ∧ out3.length = min 3 docChunks.length := by
  constructor
  · refine ⟨_, findRelevantChunksAux_spec 2 q docEmb docChunks k hq hemb
      hch hlen hmagq hvalid, ?_⟩
    rw [List.length_map, List.length_take, length_rankedSort, if_pos hk,
      hlen]
    omega
  · refine ⟨_, findRelevantChunksAux_spec 3 q docEmb docChunks k hq hemb
      hch hlen hmagq hvalid, ?_⟩
    rw [List.length_map, List.length_take, length_rankedSort, if_pos hk,
      hlen]
    omega

/-- Concrete instance of `findRelevantChunks_clamp`: one candidate,
requested `k = 5`. -/
theorem findRelevantChunks_clamp_witness :
    ∃ out, findRelevantChunks [(1 : ℝ)] [[(1 : ℝ)]] ["a"] 5 =
      Except.ok out ∧ out.length = min 2 1 := by
  have hmag : magnitude [(1 : ℝ)] ≠ 0 := by
    rw [magnitude, sqSum]
    norm_num
  exact (findRelevantChunks_clamp [(1 : ℝ)] [[(1 : ℝ)]] ["a"] 5
    (by simp) (by simp) (by simp) (by simp) hmag
    (by
      intro e he
      simp only [List.mem_cons, List.not_mem_nil, or_false] at he
      rcases he with rfl <;> exact ⟨rfl, hmag⟩)
    (by norm_num)).1

/-- C4 counterexample: with requested `k = 0` and three candidates the
code still returns two chunks, exceeding `min k candidateCount = 0`. -/
theorem findRelevantChunks_topK_bound_cex :
    ∃ out, findRelevantChunks [(1 : ℝ)] [[(1 : ℝ)], [(1 : ℝ)], [(1 : ℝ)]]
        ["a", "b", "c"] 0 = Except.ok out ∧ out.length = 2 ∧
      ¬ ((out.length : Int) ≤ min (0 : Int) 3) := by
  have hmag : magnitude [(1 : ℝ)] ≠ 0 := by
    rw [magnitude, sqSum]
    norm_num
  have hspec := findRelevantChunksAux_spec 2 [(1 : ℝ)]
    [[(1 : ℝ)], [(1 : ℝ)], [(1 : ℝ)]] ["a", "b", "c"] 0
    (by simp) (by simp) (by simp) (by simp) hmag
    (by
      intro e he
      simp only [List.mem_cons, List.not_mem_nil, or_false] at he
      rcases he with rfl | rfl | rfl <;> exact ⟨rfl, hmag⟩)
  refine ⟨_, hspec, ?_, ?_⟩ <;>
    rw [List.length_map, List.length_take, length_rankedSort] <;>
    decide

/-- C4 (amended to positive `k`): for every requested `k ≥ 1` the run
copy returns at most `min k candidateCount` chunks, and the similarity
scores of the returned chunks are non-increasing in return order. -/
theorem findRelevantChunks_topK_bound (q : List ℝ)
    (docEmb : List (List ℝ)) (docChunks : List String) (k : Int)
    (hq : q ≠ []) (hemb : docEmb ≠ []) (hch : docChunks ≠ [])
    (hlen : docEmb.length = docChunks.length)
    (hmagq : magnitude q ≠ 0)
    (hvalid : ∀ e ∈ docEmb, e.length = q.length ∧ magnitude e ≠ 0)
    (hk : 1 ≤ k) :
    ∃ es kk, rankedSimilarities q docEmb = Except.ok es ∧
      findRelevantChunks q docEmb docChunks k =
        Except.ok ((es.take kk).map (fun e => docChunks.getD e.index "")) ∧
      ((es.take kk).map (fun e => docChunks.getD e.index "")).length ≤
        min k.toNat docChunks.length ∧
      List.Sorted (fun x y : ℝ => y ≤ x)
        ((es.take kk).map SimEntry.score) := by
  haveI : IsTotal SimEntry simDesc := ⟨fun a b => le_total b.score a.score⟩
  haveI : IsTrans SimEntry simDesc :=
    ⟨fun _ _ _ h1 h2 => le_trans h2 h1⟩
  refine ⟨_, _, rankedSimilarities_ok q docEmb hq hmagq hvalid,
    findRelevantChunksAux_spec 2 q docEmb docChunks k hq hemb hch hlen
      hmagq hvalid, ?_, ?_⟩
  · rw [List.length_map, List.length_take, length_rankedSort, hlen]
    split
    · omega
    · omega
  · have hsorted : List.Sorted simDesc (List.insertionSort simDesc
        (docEmb.enum.map (fun p => SimEntry.mk p.1 (cosineSim q p.2)))) :=
      List.sorted_insertionSort simDesc _
    exact List.pairwise_map.mpr
      (hsorted.sublist (List.take_sublist _ _))

/-- Concrete instance of `findRelevantChunks_topK_bound`: one
candidate, requested `k = 1`. -/
theorem findRelevantChunks_topK_bound_witness :
    ∃ es kk, rankedSimilarities [(1 : ℝ)] [[(1 : ℝ)]] = Except.ok es ∧
      findRelevantChunks [(1 : ℝ)] [[(1 : ℝ)]] ["a"] 1 =
        Except.ok ((es.take kk).map
          (fun e => (["a"] : List String).getD e.index "")) ∧
      ((es.take kk).map
        (fun e => (["a"] : List String).getD e.index "")).length ≤
        min ((1 : Int)).toNat 1 ∧
      List.Sorted (fun x y : ℝ => y ≤ x)
        ((es.take kk).map SimEntry.score) := by
  have hmag : magnitude [(1 : ℝ)] ≠ 0 := by
    rw [magnitude, sqSum]
    norm_num
  exact findRelevantChunks_topK_bound [(1 : ℝ)] [[(1 : ℝ)]] ["a"] 1
    (by simp) (by simp) (by simp) (by simp) hmag
    (by
      intro e he
      simp only [List.mem_cons, List.not_mem_nil, or_false] at he
      rcases he with rfl <;> exact ⟨rfl, hmag⟩)
    (by norm_num)

/-! ### Extracted-text cache (`getCachedText` / `setCachedText` /
`computeTTL`)

`src/app/api/extract-text/route.ts` lines 259-288.  The module-level
`Map` is modelled as a function from URLs to optional entries,
`Date.now()` as an explicit millisecond timestamp.  URL parsing plus
`Date.parse` of the `se` query parameter is abstracted as a parse
oracle `parseSe : String → Option Int` returning the parsed expiry
instant, `none` when the URL does not parse, carries no `se`
parameter, or its value fails `Date.parse` (the `catch {}` /
`Number.isNaN` paths). -/

structure CacheEntry where
  text : List Char
  expiresAt : Int

def Cache : Type := String → Option CacheEntry

def emptyCache : Cache := fun _ => none

/-- `getCachedText`: a lookup past the expiry deletes the entry and
reports a miss; the first component is the returned text, the second
the cache as left behind. -/
def getCachedText (cache : Cache) (now : Int) (url : String) :
    Option (List Char) × Cache :=
  match cache url with
  | none => (none, cache)
  | some entry =>
    if entry.expiresAt < now then
      (none, fun u => if u = url then none else cache u)
    else
      (some entry.text, cache)

def computeTTL (parseSe : String → Option Int) (urlString : String)
    (now : Int) : Int :=
  match parseSe urlString with
  | some expiry => min (max 0 (expiry - now)) (7 * 24 * 60 * 60 * 1000)
  | none => 24 * 60 * 60 * 1000

def setCachedText (parseSe : String → Option Int) (cache : Cache)
    (now : Int) (url : String) (text : List Char) : Cache :=
  fun u => if u = url then
    some { text := text, expiresAt := now + computeTTL parseSe url now }
  else cache u

/-- C6: Cache get-after-set with computed TTL.  Writing at time `t`
and reading at `t'` returns the text iff `t'` is within `t + TTL`,
returns a miss and evicts the entry once past it, where the TTL is
`min(max(0, se - t), 7 days)` when a parseable `se` expiry is present
and 24 hours otherwise. -/
theorem cache_get_after_set (parseSe : String → Option Int)
    (cache : Cache) (url : String) (text : List Char) (t t' : Int) :
    (t' ≤ t + computeTTL parseSe url t →
      (getCachedText (setCachedText parseSe cache t url text) t' url).1 =
        some text) ∧
      (t + computeTTL parseSe url t < t' →
        (getCachedText (setCachedText parseSe cache t url text) t' url).1 =
          none ∧
        ((getCachedText (setCachedText parseSe cache t url text) t' url).2
          url = none)) ∧
      (∀ e, parseSe url = some e →
        computeTTL parseSe url t =
          min (max 0 (e - t)) (7 * 24 * 60 * 60 * 1000)) ∧
      (parseSe url = none →
        computeTTL parseSe url t = 24 * 60 * 60 * 1000) := by
  have hset : setCachedText parseSe cache t url text url =
      some { text := text,
             expiresAt := t + computeTTL parseSe url t } := by
    rw [setCachedText]
    simp
  refine ⟨?_, ?_, ?_, ?_⟩
  · intro h
    rw [getCachedText, hset]
    dsimp only
    rw [if_neg (by omega)]
  · intro h
    rw [getCachedText, hset]
    dsimp only
    rw [if_pos (by omega)]
    exact ⟨rfl, by simp⟩
  · intro e he
    rw [computeTTL, he]
  · intro he
    rw [computeTTL, he]

/-- Concrete instance of `cache_get_after_set`: an `se` expiry 2000 ms
ahead gives a TTL of 2000 ms; a read 1500 ms after the write hits, a
read 2500 ms after misses. -/
theorem cache_get_after_set_witness :
    (getCachedText
        (setCachedText (fun _ => some 3000) emptyCache 1000 "u"
          ['x']) 2500 "u").1 = some ['x'] ∧
      (getCachedText
        (setCachedText (fun _ => some 3000) emptyCache 1000 "u"
          ['x']) 3500 "u").1 = none := by
  have h := cache_get_after_set (fun _ => some 3000) emptyCache "u"
    ['x'] 1000
  exact ⟨(h 2500).1 (by decide), ((h 3500).2.1 (by decide)).1⟩

/-! ### Embedding batcher (`getEmbeddingsOptimized`)

`src/app/api/v1/hackrx/run/route.ts` lines 242-273.  The remote
embedding call `openai.embeddings.create` is abstracted as `service`;
the sequential batch loop accumulating `embeddings.push(...)` is
`goBatches` over the consecutive `batchSize`-element slices of the
input (the inter-batch `setTimeout` delay has no functional effect).
The surrounding `try`/`catch` turns any thrown error — including the
empty-input validation throw — into the single embedding-service
error, with no partial result. -/

def goBatches {α : Type} (service : List String → Except Unit (List α)) :
    List (List String) → Except Unit (List α)
  | [] => Except.ok []
  | b :: bs =>
    match service b with
    | Except.error e => Except.error e
    | Except.ok vs =>
      match goBatches service bs with
      | Except.error e => Except.error e
      | Except.ok rest => Except.ok (vs ++ rest)

def getEmbeddingsOptimized {α : Type}
    (service : List String → Except Unit (List α))
    (texts : List String) (batchSize : Nat) : Except String (List α) :=
  if texts = [] then
    Except.error "Failed to generate embeddings"
  else
    match goBatches service (chunksOf batchSize texts) with
    | Except.ok vs => Except.ok vs
    | Except.error _ => Except.error "Failed to generate embeddings"

theorem goBatches_ok {α : Type}
    (service : List String → Except Unit (List α)) (f : String → α)
    (bs : List (List String))
    (h : ∀ b ∈ bs, service b = Except.ok (b.map f)) :
    goBatches service bs = Except.ok ((bs.map (List.map f)).flatten) := by
  induction bs with
  | nil => rfl
  | cons b bs ih =>
    rw [goBatches, h b (by simp), ih (fun c hc => h c (by simp [hc]))]
    dsimp only
    rw [List.map_cons, List.flatten_cons]

theorem goBatches_error {α : Type}
    (service : List String → Except Unit (List α))
    (bs : List (List String))
    (h : ∃ b ∈ bs, ∃ e, service b = Except.error e) :
    ∃ e, goBatches service bs = Except.error e := by
  induction bs with
  | nil => simp at h
  | cons b bs ih =>
    obtain ⟨c, hc, e, he⟩ := h
    rw [List.mem_cons] at hc
    rcases hc with rfl | hc
    · exact ⟨e, by rw [goBatches, he]⟩
    · rw [goBatches]
      match hsb : service b with
      | Except.error e' => exact ⟨e', rfl⟩
      | Except.ok vs =>
        obtain ⟨e'', he''⟩ := ih ⟨c, hc, e, he⟩
        rw [he'']
        exact ⟨e'', rfl⟩

/-- C7: Embedder order preservation and all-or-nothing failure.  On a
non-empty input and positive batch size, the inputs are partitioned
into consecutive batches of at most `batchSize` texts whose
concatenation is the input; if the service returns one vector per
batch element in batch order on every batch, the call returns exactly
one vector per input text in input order; if the service errors on any
batch, the whole call fails with the embedding-service error and no
partial result. -/
theorem getEmbeddings_order {α : Type}
    (service : List String → Except Unit (List α)) (f : String → α)
    (texts : List String) (batchSize : Nat)
    (htexts : texts ≠ []) (hbs : 1 ≤ batchSize) :
    (chunksOf batchSize texts).flatten = texts ∧
      (∀ b ∈ chunksOf batchSize texts, b ≠ [] ∧ b.length ≤ batchSize) ∧
      ((∀ b ∈ chunksOf batchSize texts, service b = Except.ok (b.map f)) →
        getEmbeddingsOptimized service texts batchSize =
          Except.ok (texts.map f)) ∧
      ((∃ b ∈ chunksOf batchSize texts, ∃ e, service b = Except.error e) →
        getEmbeddingsOptimized service texts batchSize =
          Except.error "Failed to generate embeddings") := by
  refine ⟨join_chunksOf batchSize hbs texts, ?_, ?_, ?_⟩
  · intro b hb
    match batchSize, hbs with
    | m + 1, _ => exact mem_chunksOfSucc m texts b hb
  · intro h
    rw [getEmbeddingsOptimized, if_neg htexts, goBatches_ok service f _ h]
    rw [← List.map_flatten, join_chunksOf batchSize hbs texts]
  · intro h
    obtain ⟨e, he⟩ := goBatches_error service _ h
    rw [getEmbeddingsOptimized, if_neg htexts, he]

/-- Concrete instance of `getEmbeddings_order`: two texts in batches
of one, with an order-preserving service. -/
theorem getEmbeddings_order_witness :
    getEmbeddingsOptimized
        (fun b => Except.ok (b.map (fun _ => ()))) ["a", "b"] 1 =
      Except.ok [(), ()] := by
  have h := (getEmbeddings_order
    (fun b => Except.ok (b.map (fun _ => ()))) (fun _ => ())
    ["a", "b"] 1 (by simp) (by norm_num)).2.2.1
    (fun b _ => rfl)
  simpa using h

/-! ### PDF splitting strategy (`calculateSplittingStrategy` /
`createSinglePDFPart`)

`src/app/api/extract-text/route.ts` lines 635-649 and 675-699 with the
constants of lines 298-301.  `Math.ceil(pageCount / pagesPerPart)` on
naturals is `(pageCount + pagesPerPart - 1) / pagesPerPart`;
`createSinglePDFPart` derives the page range
`[partIndex * pagesPerPart, min((partIndex + 1) * pagesPerPart - 1,
pageCount - 1)]`. -/

def ADOBE_PAGE_LIMIT : Nat := 300
def PAGES_PER_SPLIT_TEXT : Nat := 200
def PAGES_PER_SPLIT_SCANNED : Nat := 50

structure SplittingStrategy where
  partsNeeded : Nat
  pagesPerPart : Nat

def calculateSplittingStrategy (pageCount : Nat) (forceSmaller : Bool) :
    SplittingStrategy :=
  let pp0 := if ADOBE_PAGE_LIMIT < pageCount then PAGES_PER_SPLIT_SCANNED
    else PAGES_PER_SPLIT_TEXT
  let pp := if forceSmaller then pp0 / 2 else pp0
  { partsNeeded := (pageCount + pp - 1) / pp, pagesPerPart := pp }

def startPage (pagesPerPart partIndex : Nat) : Nat :=
  partIndex * pagesPerPart

def endPage (pagesPerPart pageCount partIndex : Nat) : Nat :=
  min ((partIndex + 1) * pagesPerPart - 1) (pageCount - 1)

theorem pagesPerPart_pos (pageCount : Nat) (forceSmaller : Bool) :
    1 ≤ (calculateSplittingStrategy pageCount forceSmaller).pagesPerPart := by
  rw [calculateSplittingStrategy]
  dsimp only
  split <;> split <;> decide

/-- Page coverage for an arbitrary positive page-window `pp` and the
ceiling part count. -/
theorem parts_cover (pp P : Nat) (hpp : 1 ≤ pp) (hP : 1 ≤ P) :
    (∀ p, p < P ↔ ∃ i, i < (P + pp - 1) / pp ∧
        startPage pp i ≤ p ∧ p ≤ endPage pp P i) ∧
      (∀ i j p, i < j → startPage pp i ≤ p → p ≤ endPage pp P i →
        startPage pp j ≤ p → p ≤ endPage pp P j → False) ∧
      (∀ i, i + 1 < (P + pp - 1) / pp →
        endPage pp P i + 1 = startPage pp (i + 1)) := by
  have hceil : ((P + pp - 1) / pp) * pp + (P + pp - 1) % pp = P + pp - 1 :=
    Nat.div_add_mod' _ _
  have hmod : (P + pp - 1) % pp < pp := Nat.mod_lt _ (by omega)
  refine ⟨?_, ?_, ?_⟩
  · intro p
    constructor
    · intro hp
      refine ⟨p / pp, ?_, ?_, ?_⟩
      · have hdm : (p / pp) * pp + p % pp = p := Nat.div_add_mod' _ _
        have hm : p % pp < pp := Nat.mod_lt _ (by omega)
        by_contra hge
        push_neg at hge
        have : ((P + pp - 1) / pp) * pp ≤ (p / pp) * pp :=
          Nat.mul_le_mul_right pp hge
        omega
      · rw [startPage]
        exact Nat.div_mul_le_self p pp
      · rw [endPage]
        have hdm : (p / pp) * pp + p % pp = p := Nat.div_add_mod' _ _
        have hm : p % pp < pp := Nat.mod_lt _ (by omega)
        have : p < (p / pp + 1) * pp := by
          rw [Nat.add_mul, Nat.one_mul]
          omega
        omega
    · intro ⟨i, _, _, hend⟩
      rw [endPage] at hend
      omega
  · intro i j p hij hsi hei hsj hej
    rw [startPage] at hsi hsj
    rw [endPage] at hei hej
    have h1 : (i + 1) * pp ≤ j * pp := Nat.mul_le_mul_right pp (by omega)
    have h2 : p < (i + 1) * pp := by
      have : 1 ≤ (i + 1) * pp := Nat.mul_pos (Nat.succ_pos i) (by omega)
      omega
    omega
  · intro i hi
    rw [endPage, startPage]
    have h1 : (i + 1) * pp ≤ ((P + pp - 1) / pp - 1) * pp :=
      Nat.mul_le_mul_right pp (by omega)
    have h2 : ((P + pp - 1) / pp - 1) * pp + pp = ((P + pp - 1) / pp) * pp := by
      have hN : 1 ≤ (P + pp - 1) / pp := by omega
      have hle : pp ≤ ((P + pp - 1) / pp) * pp :=
        Nat.le_mul_of_pos_left pp hN
      rw [Nat.sub_mul, Nat.one_mul]
      omega
    have h3 : 1 ≤ (i + 1) * pp := Nat.mul_pos (Nat.succ_pos i) (by omega)
    omega

/-- C8: Split-part page coverage.  For every page count `P ≥ 1` and
either `forceSmaller` mode, the per-part page ranges derived from the
strategy chosen by `calculateSplittingStrategy` are pairwise
non-overlapping, contiguous, and cover exactly the pages
`[0, P-1]`. -/
theorem splitting_strategy_cover (P : Nat) (forceSmaller : Bool)
    (hP : 1 ≤ P) :
    (∀ p, p < P ↔ ∃ i,
        i < (calculateSplittingStrategy P forceSmaller).partsNeeded ∧
        startPage (calculateSplittingStrategy P forceSmaller).pagesPerPart
          i ≤ p ∧
        p ≤ endPage
          (calculateSplittingStrategy P forceSmaller).pagesPerPart P i) ∧
      (∀ i j p, i < j →
        startPage (calculateSplittingStrategy P forceSmaller).pagesPerPart
          i ≤ p →
        p ≤ endPage
          (calculateSplittingStrategy P forceSmaller).pagesPerPart P i →
        startPage (calculateSplittingStrategy P forceSmaller).pagesPerPart
          j ≤ p →
        p ≤ endPage
          (calculateSplittingStrategy P forceSmaller).pagesPerPart P j →
        False) ∧
      (∀ i, i + 1 <
          (calculateSplittingStrategy P forceSmaller).partsNeeded →
        endPage (calculateSplittingStrategy P forceSmaller).pagesPerPart
            P i + 1 =
          startPage
            (calculateSplittingStrategy P forceSmaller).pagesPerPart
            (i + 1)) := by
  have hpp := pagesPerPart_pos P forceSmaller
  have hparts : (calculateSplittingStrategy P forceSmaller).partsNeeded =
      (P + (calculateSplittingStrategy P forceSmaller).pagesPerPart - 1) /
        (calculateSplittingStrategy P forceSmaller).pagesPerPart := rfl
  rw [hparts]
  exact parts_cover _ P hpp hP

/-- Concrete instance of `splitting_strategy_cover` at `P = 450`
(scanned-range heuristic, 50 pages per part, 9 parts). -/
theorem splitting_strategy_cover_witness :
    ∃ i, i < (calculateSplittingStrategy 450 false).partsNeeded ∧
      startPage (calculateSplittingStrategy 450 false).pagesPerPart i ≤
        449 ∧
      449 ≤ endPage (calculateSplittingStrategy 450 false).pagesPerPart
        450 i :=
  ((splitting_strategy_cover 450 false (by norm_num)).1 449).mp
    (by norm_num)

/-! ### Raw PDF text heuristics (`tryRawPDFExtraction`)

`src/app/api/extract-text/route.ts` lines 953-991.  The buffer is
modelled as the decoded character list; `buffer.toString('utf8', 0,
min(len, 5000000))` is `take 5000000`.  Each global regex
`/\(​[^)]{10,}\)/g` (and the bracket, angle and quote variants) greedily
matches a delimiter, at least ten non-closing characters, and the
closing delimiter; since the inner class excludes the closer, a match
starting at an opener runs exactly to the next closer, the engine
resumes after each match and otherwise advances one position.
`scanDelim` implements that scan; the fuel argument (instantiated with
the string length, an upper bound on the number of scan steps) only
makes the recursion structural.  `match.slice(1, -1)` strips the
delimiters, so the scan yields the inner texts directly. -/

def scanDelim (openc closec : Char) : Nat → List Char → List (List Char)
  | 0, _ => []
  | _ + 1, [] => []
  | fuel + 1, c :: rest =>
    if c = openc then
      let inner := rest.takeWhile (fun d => d ≠ closec)
      if 10 ≤ inner.length ∧ inner.length < rest.length then
        inner :: scanDelim openc closec fuel (rest.drop (inner.length + 1))
      else
        scanDelim openc closec fuel rest
    else
      scanDelim openc closec fuel rest

def scanMatches (openc closec : Char) (s : List Char) :
    List (List Char) :=
  scanDelim openc closec s.length s

def isLetter (c : Char) : Bool :=
  ('a' ≤ c ∧ c ≤ 'z') ∨ ('A' ≤ c ∧ c ≤ 'Z')

def collectRuns (openc closec : Char) (s : List Char) :
    List (List Char) :=
  (scanMatches openc closec s).filter
    (fun t => 10 < t.length ∧ t.any isLetter)

def patternText (openc closec : Char) (s : List Char) : List Char :=
  joinWords (collectRuns openc closec s)

def pickLonger (acc cand : List Char) : List Char :=
  if acc.length < cand.length then cand else acc

def rawAggregate (s : List Char) : List Char :=
  pickLonger (pickLonger (pickLonger (pickLonger []
    (patternText '(' ')' s)) (patternText '[' ']' s))
    (patternText '<' '>' s)) (patternText '"' '"' s)

def tryRawPDFExtraction (buf : List Char) : List Char :=
  let text := buf.take 5000000
  let extractedText := rawAggregate text
  if 100 < (trimWs extractedText).length then extractedText else []

theorem pickLonger_le_left (acc cand : List Char) :
    acc.length ≤ (pickLonger acc cand).length := by
  rw [pickLonger]
  split <;> omega

theorem pickLonger_le_right (acc cand : List Char) :
    cand.length ≤ (pickLonger acc cand).length := by
  rw [pickLonger]
  split <;> omega

theorem pickLonger_cases (acc cand : List Char) :
    pickLonger acc cand = acc ∨ pickLonger acc cand = cand := by
  rw [pickLonger]
  split
  · exact Or.inr rfl
  · exact Or.inl rfl

set_option maxRecDepth 8000 in
/-- C9 counterexample: a lone 12-character parenthesised letter run is
the longest aggregate match, yet `tryRawPDFExtraction` returns the
empty string because the aggregate does not clear the final
100-character threshold — the function does not return the longest
aggregate match. -/
theorem tryRawPDFExtraction_cex :
    tryRawPDFExtraction (('(' :: List.replicate 12 'a') ++ [')']) = [] ∧
      rawAggregate (('(' :: List.replicate 12 'a') ++ [')']) =
        List.replicate 12 'a' ∧
      ¬ (List.replicate 12 'a' : List Char) = [] := by
  decide

/-- C9 (amended): `tryRawPDFExtraction` examines only the first 5 MB
of the buffer; every collected run has more than 10 characters (at
least 11, not 10) and contains a letter; the aggregate is the longest
space-joined collection over the four delimiter styles; and the
operation is total, returning that longest aggregate only when it
trims to more than 100 characters and the empty string otherwise. -/
theorem tryRawPDFExtraction_spec (buf : List Char) :
    tryRawPDFExtraction buf = tryRawPDFExtraction (buf.take 5000000) ∧
      (∀ oc cc : Char, ∀ s : List Char, ∀ t ∈ collectRuns oc cc s,
        11 ≤ t.length ∧ t.any isLetter = true) ∧
      (∀ oc cc : Char, ∀ s : List Char,
        patternText oc cc s = joinWords (collectRuns oc cc s)) ∧
      (patternText '(' ')' (buf.take 5000000)).length ≤
        (rawAggregate (buf.take 5000000)).length ∧
      (patternText '[' ']' (buf.take 5000000)).length ≤
        (rawAggregate (buf.take 5000000)).length ∧
      (patternText '<' '>' (buf.take 5000000)).length ≤
        (rawAggregate (buf.take 5000000)).length ∧
      (patternText '"' '"' (buf.take 5000000)).length ≤
        (rawAggregate (buf.take 5000000)).length ∧
      (100 < (trimWs (rawAggregate (buf.take 5000000))).length →
        tryRawPDFExtraction buf = rawAggregate (buf.take 5000000)) ∧
      ((trimWs (rawAggregate (buf.take 5000000))).length ≤ 100 →
        tryRawPDFExtraction buf = []) := by
  have htake : (buf.take 5000000).take 5000000 = buf.take 5000000 := by
    rw [List.take_take, min_self]
  refine ⟨?_, ?_, fun _ _ _ => rfl, ?_, ?_, ?_, ?_, ?_, ?_⟩
  · rw [tryRawPDFExtraction, tryRawPDFExtraction, htake]
  · intro oc cc s t ht
    have h := List.of_mem_filter ht
    rw [decide_eq_true_eq] at h
    exact ⟨h.1, h.2⟩
  · exact le_trans (pickLonger_le_right _ _) (le_trans
      (pickLonger_le_left _ _) (le_trans (pickLonger_le_left _ _)
        (pickLonger_le_left _ _)))
  · exact le_trans (pickLonger_le_right _ _) (le_trans
      (pickLonger_le_left _ _) (pickLonger_le_left _ _))
  · exact le_trans (pickLonger_le_right _ _) (pickLonger_le_left _ _)
  · exact pickLonger_le_right _ _
  · intro h
    rw [tryRawPDFExtraction, if_pos h]
  · intro h
    rw [tryRawPDFExtraction, if_neg (by omega)]

set_option maxRecDepth 40000 in
/-- Concrete instance of `tryRawPDFExtraction_spec`: a 120-character
parenthesised letter run clears the threshold and is returned. -/
theorem tryRawPDFExtraction_spec_witness :
    tryRawPDFExtraction (('(' :: List.replicate 120 'a') ++ [')']) =
      rawAggregate ((('(' :: List.replicate 120 'a') ++ [')']).take
        5000000) :=
  (tryRawPDFExtraction_spec
    (('(' :: List.replicate 120 'a') ++ [')'])).2.2.2.2.2.2.2.1
    (by decide)

/-! ### Persisted-index retrieval (`PineconeService.getTopKChunks`)

`src/lib/pinecone.ts` lines 67-95.  The remote index query is
abstracted as its result: either a thrown error or a match list, each
match carrying an optional score (`b.score || 0` defaults a missing
score to 0) and an optional metadata text (`typeof text === 'string' ?
text : ''` defaults anything else to the empty string).  Scores are
modelled as `ℚ`; the defensive `sort((a, b) => (b.score || 0) -
(a.score || 0))` is the stable descending sort.  The service's own
`topK` bound is a property of the remote index, taken as a hypothesis
on the match list. -/

structure PineMatch where
  score : Option ℚ
  text : Option String
deriving DecidableEq

def matchScoreOr0 (m : PineMatch) : ℚ := m.score.getD 0

def matchTextOrEmpty (m : PineMatch) : String := m.text.getD ""

def byScoreDesc (a b : PineMatch) : Prop :=
  matchScoreOr0 b ≤ matchScoreOr0 a

instance : DecidableRel byScoreDesc :=
  fun a b => inferInstanceAs (Decidable (_ ≤ _))

def getTopKChunks (queryResult : Except Unit (List PineMatch)) :
    List String :=
  match queryResult with
  | Except.error _ => []
  | Except.ok ms =>
    ((List.insertionSort byScoreDesc ms).map matchTextOrEmpty).filter
      (fun t => 0 < t.length)

/-- C10: Persisted-index retrieval silently degrades.  A query error
yields the empty list instead of propagating; on success, given that
the index returns at most `topK` matches, at most `topK` strings come
back, every returned string is non-empty (matches with missing or
empty text are silently dropped), and the output is the non-empty
texts of a score-descending stable re-sort of the matches. -/
theorem getTopKChunks_spec (topK : Nat)
    (queryResult : Except Unit (List PineMatch)) :
    (∀ e, queryResult = Except.error e → getTopKChunks queryResult = []) ∧
      ∀ ms, queryResult = Except.ok ms → ms.length ≤ topK →
        (getTopKChunks queryResult).length ≤ topK ∧
        (∀ s ∈ getTopKChunks queryResult, s ≠ "") ∧
        ∃ sorted : List PineMatch, sorted.Perm ms ∧
          List.Sorted byScoreDesc sorted ∧
          getTopKChunks queryResult =
            (sorted.map matchTextOrEmpty).filter (fun t => 0 < t.length) := by
  haveI : IsTotal PineMatch byScoreDesc :=
    ⟨fun a b => le_total (matchScoreOr0 b) (matchScoreOr0 a)⟩
  haveI : IsTrans PineMatch byScoreDesc :=
    ⟨fun _ _ _ h1 h2 => le_trans h2 h1⟩
  constructor
  · intro e he
    rw [he]
    rfl
  · intro ms hms hlen
    subst hms
    refine ⟨?_, ?_, ?_⟩
    · calc (getTopKChunks (Except.ok ms)).length
          ≤ ((List.insertionSort byScoreDesc ms).map
              matchTextOrEmpty).length := List.length_filter_le _ _
        _ = ms.length := by
            rw [List.length_map,
              (List.perm_insertionSort byScoreDesc ms).length_eq]
        _ ≤ topK := hlen
    · intro s hs
      have h := List.of_mem_filter hs
      rw [decide_eq_true_eq] at h
      intro hempty
      rw [hempty] at h
      simp at h
    · exact ⟨List.insertionSort byScoreDesc ms,
        List.perm_insertionSort byScoreDesc ms,
        List.sorted_insertionSort byScoreDesc ms, rfl⟩

/-- Concrete instance of `getTopKChunks_spec`: two matches, one with
missing text, give a single non-empty chunk within the bound. -/
theorem getTopKChunks_spec_witness :
    (getTopKChunks (Except.ok
        [{ score := some 1, text := some "x" },
         { score := some 2, text := none }])).length ≤ 2 ∧
      ∀ s ∈ getTopKChunks (Except.ok
        [{ score := some 1, text := some "x" },
         { score := some 2, text := none }]), s ≠ "" := by
  have h := (getTopKChunks_spec 2 (Except.ok
    [{ score := some 1, text := some "x" },
     { score := some 2, text := none }])).2
    [{ score := some 1, text := some "x" },
     { score := some 2, text := none }] rfl (by decide)
  exact ⟨h.1, h.2.1⟩

end HackRx
